import Mathlib

/-!
Verification development for the `bread` static site generator
(`src/main.rs`).  Strings are modelled as lists of characters (`Str`);
all the delimiters the program searches for (`---`, `\n---`, `-`, `:`,
`,`, `index`, …) are ASCII, so Rust's byte indices always coincide with
character positions at every slice the program takes, and the
character-level model is faithful.
-/

/-- Strings, modelled as lists of characters. -/
abbrev Str := List Char

/-- Coerce a Lean string literal to the model. -/
def str (s : String) : Str := s.data

/-- Whitespace test used by Rust's `str::trim` / `str::trim_start`
(the inputs of interest only involve ASCII whitespace). -/
def isWs (c : Char) : Bool := c == ' ' || c == '\t' || c == '\n' || c == '\r'

/-- Rust `str::trim_start`. -/
def strTrimStart (s : Str) : Str := s.dropWhile isWs

/-- Rust `str::trim_end`. -/
def strTrimEnd (s : Str) : Str := (s.reverse.dropWhile isWs).reverse

/-- Rust `str::trim`. -/
def strTrim (s : Str) : Str := strTrimStart (strTrimEnd s)

/-- Rust `str::starts_with`. -/
def strStartsWith (s pat : Str) : Bool :=
  match s, pat with
  | _, [] => true
  | [], _ :: _ => false
  | a :: as, b :: bs => a == b && strStartsWith as bs

/-- Rust `str::find(pattern)`: index of the first occurrence of `pat`
in `s`, if any. -/
def findSub (pat : Str) : Str → Option Nat
  | [] => if strStartsWith [] pat then some 0 else none
  | x :: xs =>
    if strStartsWith (x :: xs) pat then some 0
    else (findSub pat xs).map (· + 1)

/-- Rust `str::contains(pattern)`. -/
def containsSub (s pat : Str) : Bool := (findSub pat s).isSome

/-- Rust `str::split(c)`: the resulting list is never empty, and an
input not containing `c` yields the one-element list `[s]`. -/
def splitOnChar (c : Char) : Str → List Str
  | [] => [[]]
  | x :: xs =>
    let r := splitOnChar c xs
    if x == c then [] :: r
    else
      match r with
      | [] => [[x]]
      | h :: t => (x :: h) :: t

/-- Strip one trailing carriage return. -/
def stripCR (l : Str) : Str := if l.getLast? = some '\r' then l.dropLast else l

/-- Rust `str::lines`: split on `'\n'`, drop a final empty piece (so a
trailing newline does not produce an empty line), and strip one `'\r'`
from every `'\n'`-terminated piece. -/
def rustLines (s : Str) : List Str :=
  let parts := splitOnChar '\n' s
  if parts.getLast? = some [] then parts.dropLast.map stripCR
  else parts.dropLast.map stripCR ++ parts.getLast?.toList

/-- The `Frontmatter` struct of `main.rs`. -/
structure Frontmatter where
  title : Option Str
  date : Option Str
  tags : Option (List Str)
  slug : Option Str
deriving DecidableEq, Repr

/-- Rust `Frontmatter::default()`: all fields `None`. -/
def Frontmatter.default : Frontmatter := ⟨none, none, none, none⟩

/-- The mutable state of the line loop inside `Frontmatter::parse`:
the frontmatter built so far, `current_key`, and `tag_list`. -/
structure FmState where
  fm : Frontmatter
  currentKey : Option Str
  tagList : List Str
deriving DecidableEq, Repr

def initState : FmState := ⟨Frontmatter.default, none, []⟩

/-- Rust `str::find(c)` for a single character: index of the first
occurrence of `c`, if any. -/
def findCharIdx (c : Char) : Str → Option Nat
  | [] => none
  | x :: xs => if x == c then some 0 else (findCharIdx c xs).map (· + 1)

/-- Inline `tags:` value handling:
`value.split(',').map(trim).filter(non-empty)`. -/
def splitInlineTags (value : Str) : List Str :=
  ((splitOnChar ',' value).map strTrim).filter (fun t => !t.isEmpty)

/-- The commit of a pending block tag list that a key-value line
performs first (`if current_key == Some("tags") && !tag_list.is_empty()`
inside the key-value branch). -/
def commitTags (st : FmState) : FmState :=
  if st.currentKey = some (str "tags") ∧ st.tagList ≠ [] then
    { st with fm := { st.fm with tags := some st.tagList }, tagList := [] }
  else st

/-- One iteration of the `while let Some(line) = lines.next()` loop of
`Frontmatter::parse`. -/
def processLine (st : FmState) (line : Str) : FmState :=
  let trimmed := strTrim line
  if trimmed.isEmpty then st
  else if strStartsWith trimmed (str "-") then
    if st.currentKey = some (str "tags") then
      let tag := strTrim (trimmed.drop 1)
      if tag.isEmpty then st else { st with tagList := st.tagList ++ [tag] }
    else st
  else
    match findCharIdx ':' trimmed with
    | none => st
    | some colonPos =>
      let st1 := commitTags st
      let key := strTrim (trimmed.take colonPos)
      let value := strTrim (trimmed.drop (colonPos + 1))
      if key = str "title" then
        { st1 with fm := { st1.fm with title := some value }, currentKey := some key }
      else if key = str "date" then
        { st1 with fm := { st1.fm with date := some value }, currentKey := some key }
      else if key = str "slug" then
        { st1 with fm := { st1.fm with slug := some value }, currentKey := some key }
      else if key = str "tags" then
        if value ≠ [] then
          { st1 with fm := { st1.fm with tags := some (splitInlineTags value) },
                     currentKey := none }
        else { st1 with currentKey := some key }
      else { st1 with currentKey := none }

/-- The whole line loop. -/
def runLines (lines : List Str) : FmState := lines.foldl processLine initState

/-- The post-loop commit of a still-accumulating tag list
(`if current_key == Some("tags") && !tag_list.is_empty()`). -/
def finalizeTags (st : FmState) : Frontmatter :=
  if st.currentKey = some (str "tags") ∧ st.tagList ≠ [] then
    { st.fm with tags := some st.tagList }
  else st.fm

/-- Parsing of the front-matter section (between the `---` markers). -/
def parseFmSection (sec : Str) : Frontmatter := finalizeTags (runLines (rustLines sec))

/-- The function `Frontmatter::parse` from `main.rs`. -/
def Frontmatter.parse (content : Str) : Frontmatter × Str :=
  if !(strStartsWith content (str "---")) then (Frontmatter.default, content)
  else
    match findSub (str "\n---") (content.drop 3) with
    | none => (Frontmatter.default, content)
    | some endPos =>
      let fmSection := (content.drop 3).take endPos
      let body := (content.drop 3).drop (endPos + 4)
      (parseFmSection fmSection, strTrimStart body)

example :
    Frontmatter.parse (str "---\ntitle: Hi\ndate: 2024-01-01\ntags: a, b\n---\nbody") =
      (⟨some (str "Hi"), some (str "2024-01-01"),
        some [str "a", str "b"], none⟩, str "body") := by decide

example :
    Frontmatter.parse (str "---\ntags:\n- a\n- b\n---\nbody") =
      (⟨none, none, some [str "a", str "b"], none⟩, str "body") := by decide

example : Frontmatter.parse (str "---\nkey: v\nno closer") =
    (Frontmatter.default, str "---\nkey: v\nno closer") := by decide

/-- A discovered Markdown source file. `dir` holds the path segments of
the file's parent directory (as `find_markdown_files` yields absolute
paths rooted at the content directory), `name` the file name
(e.g. `post.md`), `content` the file's text. -/
structure SrcFile where
  dir : List Str
  name : Str
  content : Str
deriving DecidableEq, Repr

/-- Index of the last occurrence of `c` in `s`. -/
def lastIdxOf (c : Char) : Str → Option Nat
  | [] => none
  | x :: xs =>
    match lastIdxOf c xs with
    | some i => some (i + 1)
    | none => if x == c then some 0 else none

/-- Rust `Path::file_stem` for a plain file name: the whole name if it
has no dot or begins with its only dot, else the part before the last
dot; `none` for an empty name. -/
def fileStem (name : Str) : Option Str :=
  if name.isEmpty then none
  else
    match lastIdxOf '.' name with
    | none => some name
    | some i => if i = 0 then some name else some (name.take i)

/-- The output file name computed identically in `process_markdown_file`
and `collect_post_metadata`: `"{slug}.html"` if a slug is present, else
`"{stem}.html"`, with fall-back `"output.html"`. -/
def outputFilenameOf (fm : Frontmatter) (f : SrcFile) : Str :=
  match fm.slug with
  | some s => s ++ str ".html"
  | none =>
    match fileStem f.name with
    | some st => st ++ str ".html"
    | none => str "output.html"

/-- Segment-wise `Path::starts_with`. -/
def segsStartWith : List Str → List Str → Bool
  | _, [] => true
  | [], _ :: _ => false
  | a :: as, b :: bs => a = b && segsStartWith as bs

/-- Rust `input_path.parent().strip_prefix(content_dir).unwrap_or("")`. -/
def relPathOf (f : SrcFile) (contentRoot : List Str) : List Str :=
  if segsStartWith f.dir contentRoot then f.dir.drop contentRoot.length else []

/-- Join with a separator (`Vec::join` / `Path::display`). -/
def intercalateStr (sep : Str) : List Str → Str
  | [] => []
  | [x] => x
  | x :: y :: rest => x ++ sep ++ intercalateStr sep (y :: rest)

/-- Concatenation of a list of strings (`Vec::<String>::join("")` /
`collect::<String>()`). -/
def strJoin (l : List Str) : Str := l.foldr (· ++ ·) []

/-- The `PostMetadata` struct. -/
structure PostMetadata where
  title : Str
  date : Str
  tags : List Str
  url : Str
deriving DecidableEq, Repr

/-- The public URL built by `collect_post_metadata`:
`"/{output_filename}"`, or `"/{relative_path}/{output_filename}"`. -/
def urlOf (rel : List Str) (ofn : Str) : Str :=
  if rel.isEmpty then '/' :: ofn
  else '/' :: intercalateStr (str "/") rel ++ '/' :: ofn

/-- Pass 1, `collect_post_metadata`, with the file's text already read:
skip the file when the output file name contains `"index"`, otherwise
build the `PostMetadata` record with the documented defaults. -/
def collect_post_metadata (contentRoot : List Str) (f : SrcFile) : Option PostMetadata :=
  let fm := (Frontmatter.parse f.content).1
  let ofn := outputFilenameOf fm f
  if containsSub ofn (str "index") then none
  else
    some { title := fm.title.getD (str "Untitled")
           date := fm.date.getD []
           tags := fm.tags.getD []
           url := urlOf (relPathOf f contentRoot) ofn }

/-- Tag normalization used for every chip: `tag.trim().replace(' ', "")`. -/
def cleanTag (tag : Str) : Str := (strTrim tag).filter (fun c => c != ' ')

/-- A per-page tag chip from `process_markdown_file`. -/
def pageTagChipHtml (tag : Str) : Str :=
  str "<span class=\"tag\">#" ++ cleanTag tag ++ str "</span>"

/-- The `PageContext` struct. -/
structure PageContext where
  title : Str
  content : Str
  tags : Str
  keywords : Str
  date : Str
deriving DecidableEq, Repr

/-- Pass 2, `process_markdown_file`, with the file's text already read
and the Markdown engine abstracted as the pure function `mdRender`
(the spec treats it as an external collaborator): the output path the
page is written to, and the `PageContext` the template is rendered
with. -/
def process_markdown_file (mdRender : Str → Str) (outputRoot contentRoot : List Str)
    (f : SrcFile) : List Str × PageContext :=
  let parsed := Frontmatter.parse f.content
  let fm := parsed.1
  let htmlContent := mdRender parsed.2
  let ofn := outputFilenameOf fm f
  let rel := relPathOf f contentRoot
  let outputPath := outputRoot ++ rel ++ [ofn]
  let tags := fm.tags.getD []
  (outputPath,
   { title := fm.title.getD (str "Untitled")
     content := htmlContent
     tags := strJoin (tags.map pageTagChipHtml)
     keywords := intercalateStr (str ", ") tags
     date := fm.date.getD [] })

/-- Lexicographic order on strings (Rust `Ord` on `str`; on UTF-8 the
byte order and the character order coincide). -/
def strLt : Str → Str → Bool
  | [], [] => false
  | [], _ :: _ => true
  | _ :: _, [] => false
  | a :: as, b :: bs => if a < b then true else if b < a then false else strLt as bs

/-- Stable insertion (descending by `date`) of a post into a sorted
run: the incoming post, which is earlier in discovery order than all of
`l`, goes before every post of equal or smaller date. -/
def insertPostDesc (p : PostMetadata) : List PostMetadata → List PostMetadata
  | [] => [p]
  | q :: qs =>
    if strLt p.date q.date then q :: insertPostDesc p qs else p :: q :: qs

/-- Rust `posts.sort_by(|a, b| b.date.cmp(&a.date))`: `sort_by` is a
stable sort, and a stable sort under a total preorder is extensionally
unique, so it is modelled by stable insertion sort. -/
def sortPostsDesc (l : List PostMetadata) : List PostMetadata :=
  l.foldr insertPostDesc []

/-- An aggregate-page tag chip from `generate_posts_page`. -/
def aggTagChipHtml (tag : Str) : Str :=
  let clean := cleanTag tag
  str "<span class=\"tag clickable-tag\" data-tag=\"" ++ clean ++ str "\">#" ++
    clean ++ str "</span>"

/-- The per-post HTML block of `generate_posts_page`. -/
def postItemHtml (p : PostMetadata) : Str :=
  str "          <div class=\"post-item\">\n            <h3><a href=\"/bread/" ++
    p.url ++ str "\">" ++ p.title ++
    str "</a></h3>\n            <div class=\"post-meta\">\n              <span class=\"post-date\">" ++
    p.date ++ str "</span>\n              <span class=\"post-tags\">" ++
    strJoin (p.tags.map aggTagChipHtml) ++
    str "</span>\n            </div>\n          </div>\n"

/-- Ascending insertion for `Vec::<String>::sort`. -/
def insertStrAsc (x : Str) : List Str → List Str
  | [] => [x]
  | y :: ys => if strLt y x then y :: insertStrAsc x ys else x :: y :: ys

def sortStrsAsc (l : List Str) : List Str := l.foldr insertStrAsc []

/-- Rust `Vec::dedup`: remove adjacent duplicates. -/
def dedupAdj : List Str → List Str
  | [] => []
  | [x] => [x]
  | x :: y :: rest =>
    if x = y then dedupAdj (y :: rest) else x :: dedupAdj (y :: rest)

/-- The `PostsContext` struct. -/
structure PostsContext where
  post_count : Nat
  posts : Str
  tag_options : Str
deriving DecidableEq, Repr

/-- The function `generate_posts_page`: the `PostsContext` rendered into the
`posts` template. -/
def generate_posts_page (posts : List PostMetadata) : PostsContext :=
  let allTags := dedupAdj (sortStrsAsc (posts.flatMap (fun p => p.tags.map cleanTag)))
  { post_count := posts.length
    posts := strJoin (posts.map postItemHtml)
    tag_options :=
      strJoin (allTags.map (fun tag =>
        str "        <option value=\"" ++ tag ++ str "\">#" ++ tag ++ str "</option>")) }

/-- The pure part of one `build_site` invocation: every discovered file
is rendered to one page; pass 1 collects, then stably sorts, the post
metadata; the aggregate page is generated only when at least one post
survived the index filter. -/
structure BuildResult where
  pages : List (List Str × PageContext)
  posts : List PostMetadata
  postsPage : Option PostsContext

def build_site (mdRender : Str → Str) (contentRoot outputRoot : List Str)
    (files : List SrcFile) : BuildResult :=
  let posts := sortPostsDesc (files.filterMap (collect_post_metadata contentRoot))
  { pages := files.map (process_markdown_file mdRender outputRoot contentRoot)
    posts := posts
    postsPage := if posts.isEmpty then none else some (generate_posts_page posts) }

/-! ### Basic lemmas about the string primitives -/

theorem strStartsWith_iff_take (pat : Str) :
    ∀ s : Str, strStartsWith s pat = true ↔ s.take pat.length = pat := by
  induction pat with
  | nil => intro s; simp [strStartsWith]
  | cons b bs ih =>
    intro s
    cases s with
    | nil => simp [strStartsWith]
    | cons a as => simp [strStartsWith, ih as, List.take_succ_cons]

theorem strStartsWith_append (a b : Str) : strStartsWith (a ++ b) a = true := by
  rw [strStartsWith_iff_take]
  simp

theorem length_le_of_strStartsWith {s pat : Str} (h : strStartsWith s pat = true) :
    pat.length ≤ s.length := by
  rw [strStartsWith_iff_take] at h
  have := congrArg List.length h
  simp at this
  omega

theorem containsSub_iff (pat : Str) :
    ∀ s : Str, containsSub s pat = true ↔ ∃ m, strStartsWith (s.drop m) pat = true := by
  intro s
  induction s with
  | nil =>
    simp only [containsSub, findSub]
    constructor
    · intro h
      refine ⟨0, ?_⟩
      by_cases hs : strStartsWith [] pat = true
      · simpa using hs
      · simp [hs] at h
    · rintro ⟨m, hm⟩
      simp only [List.drop_nil] at hm
      simp [hm]
  | cons x xs ih =>
    by_cases hs : strStartsWith (x :: xs) pat = true
    · constructor
      · intro _
        exact ⟨0, by simpa using hs⟩
      · intro _
        simp [containsSub, findSub, hs]
    · have hred : containsSub (x :: xs) pat = containsSub xs pat := by
        simp [containsSub, findSub, hs]
      rw [hred, ih]
      constructor
      · rintro ⟨m, hm⟩
        exact ⟨m + 1, by simpa using hm⟩
      · rintro ⟨m, hm⟩
        cases m with
        | zero => exact absurd (by simpa using hm) hs
        | succ m => exact ⟨m, by simpa using hm⟩

theorem findSub_first (pat : Str) :
    ∀ (n : Nat) (s : Str), strStartsWith (s.drop n) pat = true →
      (∀ m < n, strStartsWith (s.drop m) pat = false) →
      findSub pat s = some n := by
  intro n
  induction n with
  | zero =>
    intro s h1 _
    cases s with
    | nil => simpa [findSub] using h1
    | cons x xs => simp only [List.drop_zero] at h1; simp [findSub, h1]
  | succ n ih =>
    intro s h1 h2
    cases s with
    | nil =>
      simp only [List.drop_nil] at h1
      have := h2 0 (Nat.succ_pos n)
      simp only [List.drop_nil] at this
      rw [h1] at this
      cases this
    | cons x xs =>
      have h0 : strStartsWith (x :: xs) pat = false := by
        have := h2 0 (Nat.succ_pos n)
        simpa using this
      rw [findSub, if_neg (by simp [h0])]
      have := ih xs (by simpa using h1)
        (fun m hm => by simpa using h2 (m + 1) (by omega))
      simp [this]

theorem marker_no_overlap (d rest : Str) (h1 : d ≠ []) (h4 : d.length < 4) :
    strStartsWith (d ++ (str "\n---" ++ rest)) (str "\n---") = false := by
  have hx : (('\n' : Char) == '-') = false := rfl
  rcases d with _ | ⟨a, _ | ⟨b, _ | ⟨c, _ | ⟨e, tl⟩⟩⟩⟩
  · exact absurd rfl h1
  · show strStartsWith (a :: ('\n' :: '-' :: '-' :: '-' :: rest))
      ('\n' :: '-' :: '-' :: '-' :: []) = false
    simp [strStartsWith, hx]
  · show strStartsWith (a :: b :: ('\n' :: '-' :: '-' :: '-' :: rest))
      ('\n' :: '-' :: '-' :: '-' :: []) = false
    simp [strStartsWith, hx]
  · show strStartsWith (a :: b :: c :: ('\n' :: '-' :: '-' :: '-' :: rest))
      ('\n' :: '-' :: '-' :: '-' :: []) = false
    simp [strStartsWith, hx]
  · simp only [List.length_cons] at h4
    omega

theorem findSub_marker (pre rest : Str)
    (hpre : containsSub pre (str "\n---") = false) :
    findSub (str "\n---") (pre ++ (str "\n---" ++ rest)) = some pre.length := by
  apply findSub_first
  · have hd : (pre ++ (str "\n---" ++ rest)).drop pre.length = str "\n---" ++ rest :=
      List.drop_left pre _
    rw [hd]
    exact strStartsWith_append _ _
  · intro m hm
    by_contra hc
    rw [Bool.not_eq_false] at hc
    have hsplit : (pre ++ (str "\n---" ++ rest)).drop m =
        pre.drop m ++ (str "\n---" ++ rest) := by
      rw [List.drop_append_eq_append_drop, Nat.sub_eq_zero_of_le (by omega), List.drop_zero]
    rw [hsplit] at hc
    have hdne : pre.drop m ≠ [] := by
      have : (pre.drop m).length = pre.length - m := List.length_drop m pre
      intro h
      rw [h] at this
      simp at this
      omega
    by_cases hlen : (pre.drop m).length < 4
    · rw [marker_no_overlap (pre.drop m) rest hdne hlen] at hc
      cases hc
    · push_neg at hlen
      have htake : (pre.drop m ++ (str "\n---" ++ rest)).take (str "\n---").length =
          (pre.drop m).take (str "\n---").length ++
            (str "\n---" ++ rest).take ((str "\n---").length - (pre.drop m).length) :=
        List.take_append_eq_append_take
      rw [strStartsWith_iff_take, htake] at hc
      have hz : (str "\n---").length - (pre.drop m).length = 0 := by
        have : (str "\n---").length = 4 := rfl
        omega
      rw [hz, List.take_zero, List.append_nil] at hc
      have hsw : strStartsWith (pre.drop m) (str "\n---") = true := by
        rw [strStartsWith_iff_take]
        exact hc
    
      have : containsSub pre (str "\n---") = true := by
        rw [containsSub_iff]
        exact ⟨m, hsw⟩
      rw [this] at hpre
      cases hpre

/-- C3: an input that does not begin with `---`, or begins with `---`
but whose remainder from offset 3 contains no `"\n---"`, parses to the
default all-`None` `Frontmatter` with the entire unmodified input as
body; the opening `---` is not consumed. -/
theorem frontmatter_parse_identity_when_unclosed (s : Str) :
    (strStartsWith s (str "---") = false → Frontmatter.parse s = (Frontmatter.default, s)) ∧
    (strStartsWith s (str "---") = true →
      containsSub (s.drop 3) (str "\n---") = false →
      Frontmatter.parse s = (Frontmatter.default, s)) := by
  refine ⟨fun h => ?_, fun h1 h2 => ?_⟩
  · simp [Frontmatter.parse, h]
  · have hn : findSub (str "\n---") (s.drop 3) = none := by
      rcases hf : findSub (str "\n---") (s.drop 3) with _ | n
      · rfl
      · rw [containsSub, hf] at h2
        cases h2
    simp [Frontmatter.parse, h1, hn]

theorem frontmatter_parse_identity_witness :
    Frontmatter.parse (str "hello") = (Frontmatter.default, str "hello") ∧
    Frontmatter.parse (str "---\nkey: v\nno closer") =
      (Frontmatter.default, str "---\nkey: v\nno closer") :=
  ⟨(frontmatter_parse_identity_when_unclosed (str "hello")).1 (by decide),
   (frontmatter_parse_identity_when_unclosed (str "---\nkey: v\nno closer")).2
     (by decide) (by decide)⟩

/-- C4: when the input is `---` followed by a marker-free section `pre`,
the closing marker `\n---`, and a remainder `rest`, the parser takes the
front-matter section to be exactly `pre` (the substring between offset 3
and the start of the first occurrence of `\n---`) and the body to be
exactly `rest` (the text starting four bytes after the closing marker's
start) with leading whitespace trimmed. -/
theorem frontmatter_parse_marker_split (pre rest : Str)
    (hpre : containsSub pre (str "\n---") = false) :
    Frontmatter.parse (str "---" ++ (pre ++ (str "\n---" ++ rest))) =
      (parseFmSection pre, strTrimStart rest) := by
  have hstart : strStartsWith (str "---" ++ (pre ++ (str "\n---" ++ rest))) (str "---") = true :=
    strStartsWith_append _ _
  have hdrop3 : (str "---" ++ (pre ++ (str "\n---" ++ rest))).drop 3 =
      pre ++ (str "\n---" ++ rest) :=
    List.drop_left (str "---") _
  have hfind := findSub_marker pre rest hpre
  have htake : (pre ++ (str "\n---" ++ rest)).take pre.length = pre := List.take_left _ _
  have hdrop4 : (pre ++ (str "\n---" ++ rest)).drop (pre.length + 4) = rest := by
    rw [List.drop_append_eq_append_drop, List.drop_eq_nil_of_le (by omega),
      Nat.add_sub_cancel_left, List.nil_append]
    exact List.drop_left (str "\n---") rest
  rw [Frontmatter.parse, hdrop3, hstart, hfind]
  simp [htake, hdrop4]

theorem frontmatter_parse_marker_split_witness :
    Frontmatter.parse (str "---" ++ (str "\ntitle: T" ++ (str "\n---" ++ str "\n body"))) =
      (parseFmSection (str "\ntitle: T"), strTrimStart (str "\n body")) :=
  frontmatter_parse_marker_split (str "\ntitle: T") (str "\n body") (by decide)

theorem mem_insertPostDesc {x p : PostMetadata} :
    ∀ {l : List PostMetadata}, x ∈ insertPostDesc p l ↔ x = p ∨ x ∈ l := by
  intro l
  induction l with
  | nil => simp [insertPostDesc]
  | cons q qs ih =>
    rw [insertPostDesc]
    by_cases h : strLt p.date q.date = true
    · rw [if_pos h]
      simp only [List.mem_cons, ih]
      tauto
    · rw [if_neg h]
      simp only [List.mem_cons]

theorem mem_sortPostsDesc {x : PostMetadata} :
    ∀ {l : List PostMetadata}, x ∈ sortPostsDesc l ↔ x ∈ l := by
  intro l
  induction l with
  | nil => simp [sortPostsDesc]
  | cons p ps ih =>
    show x ∈ insertPostDesc p (sortPostsDesc ps) ↔ _
    rw [mem_insertPostDesc, ih, List.mem_cons]

theorem collect_isSome (root : List Str) (f : SrcFile) :
    (collect_post_metadata root f).isSome =
      !(containsSub (outputFilenameOf (Frontmatter.parse f.content).1 f) (str "index")) := by
  by_cases hb : containsSub (outputFilenameOf (Frontmatter.parse f.content).1 f)
      (str "index") = true
  · simp [collect_post_metadata, hb]
  · rw [Bool.not_eq_true] at hb
    simp [collect_post_metadata, hb]

/-- C1: every discovered file is rendered to exactly one output page
(one page per file, in order); a file whose computed output filename
contains `index` produces no `PostMetadata` record, so it cannot appear
in the aggregate list, whose members all arise from non-index files;
every file whose output filename does not contain `index` yields exactly
one `PostMetadata` record (the counts of collected records and of
non-index files agree). -/
theorem build_site_index_exclusion (mdR : Str → Str) (contentRoot outputRoot : List Str)
    (files : List SrcFile) :
    (build_site mdR contentRoot outputRoot files).pages.length = files.length ∧
    (∀ f ∈ files, process_markdown_file mdR outputRoot contentRoot f ∈
        (build_site mdR contentRoot outputRoot files).pages) ∧
    (∀ f ∈ files,
      containsSub (outputFilenameOf (Frontmatter.parse f.content).1 f) (str "index") = true →
      collect_post_metadata contentRoot f = none) ∧
    (∀ f ∈ files,
      containsSub (outputFilenameOf (Frontmatter.parse f.content).1 f) (str "index") = false →
      ∃ m, collect_post_metadata contentRoot f = some m) ∧
    (∀ m ∈ (build_site mdR contentRoot outputRoot files).posts,
      ∃ f ∈ files, collect_post_metadata contentRoot f = some m ∧
        containsSub (outputFilenameOf (Frontmatter.parse f.content).1 f) (str "index") = false) ∧
    (files.filterMap (collect_post_metadata contentRoot)).length =
      (files.filter (fun f =>
        !(containsSub (outputFilenameOf (Frontmatter.parse f.content).1 f)
            (str "index")))).length := by
  refine ⟨by simp [build_site], fun f hf => ?_, fun f _ h => ?_, fun f _ h => ?_,
    fun m hm => ?_, ?_⟩
  · simp only [build_site]
    exact List.mem_map_of_mem _ hf
  · simp [collect_post_metadata, h]
  · have hs : (collect_post_metadata contentRoot f).isSome = true := by
      rw [collect_isSome, h]
      rfl
    exact Option.isSome_iff_exists.mp hs
  · simp only [build_site] at hm
    rw [mem_sortPostsDesc, List.mem_filterMap] at hm
    obtain ⟨f, hf, hc⟩ := hm
    refine ⟨f, hf, hc, ?_⟩
    rcases hb : containsSub (outputFilenameOf (Frontmatter.parse f.content).1 f)
        (str "index") with _ | _
    · rfl
    · rw [show collect_post_metadata contentRoot f = none by
        simp [collect_post_metadata, hb]] at hc
      cases hc
  · induction files with
    | nil => rfl
    | cons f fs ih =>
      have hpt := collect_isSome contentRoot f
      rcases hc : collect_post_metadata contentRoot f with _ | m
      · rw [hc] at hpt
        simp only [Option.isSome_none] at hpt
        have hb : containsSub (outputFilenameOf (Frontmatter.parse f.content).1 f)
            (str "index") = true := by
          rcases hb2 : containsSub (outputFilenameOf (Frontmatter.parse f.content).1 f)
              (str "index") with _ | _
          · rw [hb2] at hpt; cases hpt
          · rfl
        simp [hc, hb, ih]
      · rw [hc] at hpt
        simp only [Option.isSome_some] at hpt
        have hb : containsSub (outputFilenameOf (Frontmatter.parse f.content).1 f)
            (str "index") = false := by
          rcases hb2 : containsSub (outputFilenameOf (Frontmatter.parse f.content).1 f)
              (str "index") with _ | _
          · rfl
          · rw [hb2] at hpt; cases hpt
        simp [hc, hb, ih]

theorem build_site_index_exclusion_witness :
    collect_post_metadata [str "content"]
        ⟨[str "content"], str "index.md", str "# idx"⟩ = none ∧
    (∃ m, collect_post_metadata [str "content"]
        ⟨[str "content"], str "a.md", str "# a"⟩ = some m) :=
  ⟨(build_site_index_exclusion id [str "content"] [str "public"]
      [⟨[str "content"], str "index.md", str "# idx"⟩,
       ⟨[str "content"], str "a.md", str "# a"⟩]).2.2.1
      ⟨[str "content"], str "index.md", str "# idx"⟩ (by simp) (by decide),
   (build_site_index_exclusion id [str "content"] [str "public"]
      [⟨[str "content"], str "index.md", str "# idx"⟩,
       ⟨[str "content"], str "a.md", str "# a"⟩]).2.2.2.1
      ⟨[str "content"], str "a.md", str "# a"⟩ (by simp) (by decide)⟩

theorem strLt_nil_right : ∀ a : Str, strLt a [] = false
  | [] => rfl
  | _ :: _ => rfl

theorem strLt_irrefl : ∀ a : Str, strLt a a = false
  | [] => rfl
  | c :: as => by
    rw [strLt, if_neg (lt_irrefl c), if_neg (lt_irrefl c)]
    exact strLt_irrefl as

theorem strLt_asymm : ∀ {a b : Str}, strLt a b = true → strLt b a = false
  | [], [], h => by cases h
  | [], _ :: _, _ => rfl
  | _ :: _, [], h => by cases h
  | a :: as, b :: bs, h => by
    rw [strLt] at h
    rw [strLt]
    by_cases hab : a < b
    · rw [if_neg (lt_asymm hab), if_pos hab]
    · by_cases hba : b < a
      · rw [if_neg hab, if_pos hba] at h
        cases h
      · rw [if_neg hab, if_neg hba] at h
        rw [if_neg hba, if_neg hab]
        exact strLt_asymm h

theorem strLt_false_trans : ∀ {a b c : Str},
    strLt a b = false → strLt b c = false → strLt a c = false
  | _, _, [], _, _ => strLt_nil_right _
  | [], [], _ :: _, _, hbc => hbc
  | [], _ :: _, _, hab, _ => by cases hab
  | _ :: _, [], _ :: _, _, hbc => by cases hbc
  | a :: as, b :: bs, c :: cs, hab, hbc => by
    rw [strLt] at hab hbc
    rw [strLt]
    have h1 : ¬ a < b := by
      intro h
      rw [if_pos h] at hab
      cases hab
    have h2 : ¬ b < c := by
      intro h
      rw [if_pos h] at hbc
      cases hbc
    have hac : ¬ a < c := fun h => h1 (lt_of_lt_of_le h (not_lt.mp h2))
    rw [if_neg hac]
    by_cases hca : c < a
    · rw [if_pos hca]
    · rw [if_neg hca]
      have hac2 : a = c := le_antisymm (not_lt.mp hca) (not_lt.mp hac)
      have hb1 : a = b := by
        subst hac2
        exact le_antisymm (not_lt.mp h2) (not_lt.mp h1)
      subst hb1
      subst hac2
      rw [if_neg h1, if_neg h1] at hab
      rw [if_neg h1, if_neg h1] at hbc
      exact strLt_false_trans hab hbc

theorem pairwise_insertPostDesc (p : PostMetadata) :
    ∀ l : List PostMetadata,
      l.Pairwise (fun a b => strLt a.date b.date = false) →
      (insertPostDesc p l).Pairwise (fun a b => strLt a.date b.date = false) := by
  intro l
  induction l with
  | nil => intro _; simp [insertPostDesc]
  | cons q qs ih =>
    intro hl
    rw [List.pairwise_cons] at hl
    obtain ⟨hq, hqs⟩ := hl
    rw [insertPostDesc]
    by_cases h : strLt p.date q.date = true
    · rw [if_pos h, List.pairwise_cons]
      refine ⟨fun x hx => ?_, ih hqs⟩
      rcases mem_insertPostDesc.mp hx with hxp | hxqs
      · subst hxp
        exact strLt_asymm h
      · exact hq x hxqs
    · rw [if_neg h, List.pairwise_cons]
      rw [Bool.not_eq_true] at h
      refine ⟨fun x hx => ?_, List.pairwise_cons.mpr ⟨hq, hqs⟩⟩
      rcases List.mem_cons.mp hx with hxq | hxqs
      · subst hxq
        exact h
      · exact strLt_false_trans h (hq x hxqs)

theorem sortPostsDesc_sorted :
    ∀ l : List PostMetadata,
      (sortPostsDesc l).Pairwise (fun a b => strLt a.date b.date = false)
  | [] => List.Pairwise.nil
  | p :: ps => pairwise_insertPostDesc p (sortPostsDesc ps) (sortPostsDesc_sorted ps)

theorem filter_insertPostDesc (p : PostMetadata) (d : Str) :
    ∀ l : List PostMetadata,
      (insertPostDesc p l).filter (fun x => decide (x.date = d)) =
        (p :: l).filter (fun x => decide (x.date = d)) := by
  intro l
  induction l with
  | nil => rfl
  | cons q qs ih =>
    rw [insertPostDesc]
    by_cases h : strLt p.date q.date = true
    · rw [if_pos h]
      by_cases hp : p.date = d
      · have hq : ¬ q.date = d := by
          intro hq
          rw [hp, hq, strLt_irrefl] at h
          cases h
        simp [List.filter_cons, ih, hp, hq]
      · simp [List.filter_cons, ih, hp]
    · rw [if_neg h]

theorem sortPostsDesc_filter (d : Str) :
    ∀ l : List PostMetadata,
      (sortPostsDesc l).filter (fun x => decide (x.date = d)) =
        l.filter (fun x => decide (x.date = d)) := by
  intro l
  induction l with
  | nil => rfl
  | cons p ps ih =>
    show (insertPostDesc p (sortPostsDesc ps)).filter _ = _
    rw [filter_insertPostDesc]
    simp [List.filter_cons, ih]

/-- C2: the sequence of `PostMetadata` rendered on the aggregate posts
page is sorted descending by string comparison of the `date` fields
(no later element is strictly greater), and the sort is stable: for
every date value, the posts carrying that date appear in exactly the
order in which pass-1 collection (file-discovery order) yielded them. -/
theorem build_site_posts_sorted_stable (mdR : Str → Str) (contentRoot outputRoot : List Str)
    (files : List SrcFile) :
    ((build_site mdR contentRoot outputRoot files).posts).Pairwise
      (fun a b => strLt a.date b.date = false) ∧
    (∀ d : Str,
      ((build_site mdR contentRoot outputRoot files).posts).filter
          (fun p => decide (p.date = d)) =
        (files.filterMap (collect_post_metadata contentRoot)).filter
          (fun p => decide (p.date = d))) := by
  constructor
  · exact sortPostsDesc_sorted _
  · intro d
    exact sortPostsDesc_filter d _

/-- C7: the URL derived by `collect_post_metadata` always begins with
`/`; concretely, `content/a/b/post.md` without a slug maps to
`/a/b/post.html`, with slug `x` to `/a/b/x.html`, and `content/post.md`
to `/post.html`. -/
theorem collect_url_shape :
    (∀ (root : List Str) (f : SrcFile) (m : PostMetadata),
        collect_post_metadata root f = some m → ∃ t, m.url = '/' :: t) ∧
    collect_post_metadata [str "content"]
        ⟨[str "content", str "a", str "b"], str "post.md", str "# Hi"⟩ =
      some ⟨str "Untitled", [], [], str "/a/b/post.html"⟩ ∧
    collect_post_metadata [str "content"]
        ⟨[str "content", str "a", str "b"], str "post.md", str "---\nslug: x\n---\n# Hi"⟩ =
      some ⟨str "Untitled", [], [], str "/a/b/x.html"⟩ ∧
    collect_post_metadata [str "content"]
        ⟨[str "content"], str "post.md", str "# Hi"⟩ =
      some ⟨str "Untitled", [], [], str "/post.html"⟩ := by
  refine ⟨?_, by decide, by decide, by decide⟩
  intro root f m hm
  simp only [collect_post_metadata] at hm
  split at hm
  · cases hm
  · rw [Option.some.injEq] at hm
    subst hm
    show ∃ t, urlOf (relPathOf f root) (outputFilenameOf (Frontmatter.parse f.content).1 f) =
      '/' :: t
    rw [urlOf]
    split
    · exact ⟨_, rfl⟩
    · exact ⟨_, rfl⟩

theorem collect_url_shape_witness :
    ∃ t, (⟨str "Untitled", [], [], str "/post.html"⟩ : PostMetadata).url = '/' :: t :=
  collect_url_shape.1 [str "content"] ⟨[str "content"], str "post.md", str "# Hi"⟩
    ⟨str "Untitled", [], [], str "/post.html"⟩ (by decide)

theorem strTrim_ws_append (a b t : Str)
    (ha : ∀ c ∈ a, isWs c = true) (hb : ∀ c ∈ b, isWs c = true) :
    strTrim (a ++ (t ++ b)) = strTrim t := by
  have hda : a.dropWhile isWs = [] := List.dropWhile_eq_nil_iff.mpr ha
  have hda2 : a.reverse.dropWhile isWs = [] :=
    List.dropWhile_eq_nil_iff.mpr (fun x hx => ha x (List.mem_reverse.mp hx))
  have hdb : b.reverse.dropWhile isWs = [] :=
    List.dropWhile_eq_nil_iff.mpr (fun x hx => hb x (List.mem_reverse.mp hx))
  have hrev : (a ++ (t ++ b)).reverse = b.reverse ++ (t.reverse ++ a.reverse) := by
    simp [List.reverse_append]
  have hstep : (a ++ (t ++ b)).reverse.dropWhile isWs =
      (t.reverse ++ a.reverse).dropWhile isWs := by
    rw [hrev, List.dropWhile_append, hdb]
    simp
  by_cases ht : t.reverse.dropWhile isWs = []
  · have hall : (a ++ (t ++ b)).reverse.dropWhile isWs = [] := by
      rw [hstep, List.dropWhile_append, ht, hda2]
      simp
    rw [strTrim, strTrim, strTrimEnd, strTrimEnd, hall, ht]
  · have hne : ((t.reverse.dropWhile isWs).isEmpty = true) = False := by
      simp [List.isEmpty_iff, ht]
    have hall : (a ++ (t ++ b)).reverse.dropWhile isWs =
        t.reverse.dropWhile isWs ++ a.reverse := by
      rw [hstep, List.dropWhile_append, if_neg (by simp [List.isEmpty_iff, ht])]
    rw [strTrim, strTrim, strTrimEnd, strTrimEnd, hall, List.reverse_append,
      List.reverse_reverse, strTrimStart, List.dropWhile_append, hda]
    simp [strTrimStart]

set_option maxRecDepth 4000 in
/-- C8: tag chips (both the per-page chip and the aggregate clickable
chip) are insensitive to surrounding whitespace of the tag, and the
chip text removes the tag's interior spaces (`  hello world  ` renders
as `#helloworld`), while the page's `keywords` field joins the raw
parsed tags with `", "`, preserving interior spaces (`hello world`). -/
theorem tag_chip_normalization :
    (∀ a b tag : Str, (∀ c ∈ a, isWs c = true) → (∀ c ∈ b, isWs c = true) →
       pageTagChipHtml (a ++ (tag ++ b)) = pageTagChipHtml tag ∧
       aggTagChipHtml (a ++ (tag ++ b)) = aggTagChipHtml tag) ∧
    cleanTag (str "  hello world  ") = str "helloworld" ∧
    (process_markdown_file id [] []
        ⟨[], str "p.md", str "---\ntags: hello world\n---\nx"⟩).2.tags =
      str "<span class=\"tag\">#helloworld</span>" ∧
    (process_markdown_file id [] []
        ⟨[], str "p.md", str "---\ntags: hello world\n---\nx"⟩).2.keywords =
      str "hello world" ∧
    aggTagChipHtml (str "hello world") =
      str "<span class=\"tag clickable-tag\" data-tag=\"helloworld\">#helloworld</span>" ∧
    containsSub
      (generate_posts_page [⟨str "Untitled", [], [str "hello world"], str "/p.html"⟩]).posts
      (str "<span class=\"tag clickable-tag\" data-tag=\"helloworld\">#helloworld</span>") =
      true := by
  refine ⟨?_, by decide, by decide, by decide, by decide, by decide⟩
  intro a b tag ha hb
  have hct : cleanTag (a ++ (tag ++ b)) = cleanTag tag := by
    simp only [cleanTag, strTrim_ws_append a b tag ha hb]
  constructor
  · simp only [pageTagChipHtml, hct]
  · simp only [aggTagChipHtml, hct]

theorem tag_chip_normalization_witness :
    pageTagChipHtml (str "  " ++ (str "hello world" ++ str "  ")) =
      pageTagChipHtml (str "hello world") :=
  (tag_chip_normalization.1 (str "  ") (str "  ") (str "hello world")
    (by decide) (by decide)).1

theorem findCharIdx_lt_length (c : Char) :
    ∀ {l : Str} {i : Nat}, findCharIdx c l = some i → i < l.length := by
  intro l
  induction l with
  | nil => intro i h; cases h
  | cons x xs ih =>
    intro i h
    rw [findCharIdx] at h
    by_cases hx : (x == c) = true
    · rw [if_pos hx] at h
      cases h
      simp
    · rw [if_neg hx] at h
      rcases hf : findCharIdx c xs with _ | j
      · rw [hf] at h
        cases h
      · rw [hf] at h
        cases h
        have := ih hf
        simp only [List.length_cons]
        omega

theorem findSub_le (pat : Str) :
    ∀ {s : Str} {n : Nat}, findSub pat s = some n → n + pat.length ≤ s.length := by
  intro s
  induction s with
  | nil =>
    intro n h
    rw [findSub] at h
    by_cases hs : strStartsWith [] pat = true
    · rw [if_pos hs] at h
      cases h
      simpa using length_le_of_strStartsWith hs
    · rw [if_neg hs] at h
      cases h
  | cons x xs ih =>
    intro n h
    rw [findSub] at h
    by_cases hs : strStartsWith (x :: xs) pat = true
    · rw [if_pos hs] at h
      cases h
      simpa using length_le_of_strStartsWith hs
    · rw [if_neg hs] at h
      rcases hf : findSub pat xs with _ | m
      · rw [hf] at h
        cases h
      · rw [hf] at h
        cases h
        have := ih hf
        simp only [List.length_cons]
        omega

/-- The loop body of `Frontmatter::parse` with every Rust slice
(`trimmed[1..]`, `trimmed[..colon_pos]`, `trimmed[colon_pos + 1..]`)
guarded by its bounds check: `none` models an out-of-bounds panic. -/
def processLineChecked (st : FmState) (line : Str) : Option FmState :=
  let trimmed := strTrim line
  if trimmed.isEmpty then some st
  else if strStartsWith trimmed (str "-") then
    if st.currentKey = some (str "tags") then
      if 1 ≤ trimmed.length then some (processLine st line) else none
    else some st
  else
    match findCharIdx ':' trimmed with
    | none => some st
    | some colonPos =>
      if colonPos + 1 ≤ trimmed.length then some (processLine st line) else none

/-- The whole of `Frontmatter::parse` with every Rust slice
(`content[3..]`, `content[3..3 + end_pos]`,
`content[3 + end_pos + 4..]`, and the loop's slices) guarded by its
bounds check: `none` models an out-of-bounds panic. -/
def parseChecked (content : Str) : Option (Frontmatter × Str) :=
  if !(strStartsWith content (str "---")) then some (Frontmatter.default, content)
  else
    if 3 ≤ content.length then
      match findSub (str "\n---") (content.drop 3) with
      | none => some (Frontmatter.default, content)
      | some endPos =>
        if endPos + 4 ≤ (content.drop 3).length then
          match (rustLines ((content.drop 3).take endPos)).foldlM processLineChecked initState with
          | none => none
          | some st =>
            some (finalizeTags st, strTrimStart ((content.drop 3).drop (endPos + 4)))
        else none
    else none

theorem processLineChecked_eq (st : FmState) (line : Str) :
    processLineChecked st line = some (processLine st line) := by
  rw [processLineChecked]
  by_cases h1 : (strTrim line).isEmpty = true
  · simp [processLine, h1]
  · by_cases h2 : strStartsWith (strTrim line) (str "-") = true
    · by_cases h3 : st.currentKey = some (str "tags")
      · have hlen : 1 ≤ (strTrim line).length := by
          rcases he : strTrim line with _ | ⟨c, cs⟩
          · rw [he] at h1
            simp at h1
          · simp
        simp [processLine, h1, h2, h3, hlen]
      · simp [processLine, h1, h2, h3]
    · rcases hf : findCharIdx ':' (strTrim line) with _ | colonPos
      · simp [processLine, h1, h2, hf]
      · have hlen : colonPos + 1 ≤ (strTrim line).length := findCharIdx_lt_length ':' hf
        simp [processLine, h1, h2, hf, hlen]

theorem foldlM_processLineChecked :
    ∀ (lines : List Str) (st : FmState),
      List.foldlM processLineChecked st lines = some (List.foldl processLine st lines) := by
  intro lines
  induction lines with
  | nil => intro st; rfl
  | cons l ls ih =>
    intro st
    rw [List.foldlM_cons, processLineChecked_eq]
    simpa using ih (processLine st l)

/-- C9: `Frontmatter::parse` is total and panic-free: on every input
the bounds-checked variant `parseChecked`, in which each Rust slice is
guarded and an out-of-bounds access would yield `none`, succeeds and
returns exactly the value of `Frontmatter.parse`; malformed input only
degrades to partial or default metadata, never to a failure. -/
theorem frontmatter_parse_total (content : Str) :
    parseChecked content = some (Frontmatter.parse content) := by
  rw [parseChecked, Frontmatter.parse]
  by_cases h0 : strStartsWith content (str "---") = true
  · have h3 : 3 ≤ content.length := length_le_of_strStartsWith h0
    simp only [h0, Bool.not_true, if_false, if_pos h3]
    rcases hf : findSub (str "\n---") (content.drop 3) with _ | endPos
    · rfl
    · have hb : endPos + 4 ≤ (content.drop 3).length := findSub_le (str "\n---") hf
      simp only [if_pos hb, foldlM_processLineChecked]
      rfl
  · simp [h0]

/-- Recognition of a key-value line assigning to `key`: the trimmed
line is non-empty, is not a list item, contains `:`, and its trimmed
prefix before the first `:` is `key`; the result is the trimmed value. -/
def kvValueOf (key : Str) (line : Str) : Option Str :=
  let trimmed := strTrim line
  if trimmed.isEmpty then none
  else if strStartsWith trimmed (str "-") then none
  else
    match findCharIdx ':' trimmed with
    | none => none
    | some colonPos =>
      if strTrim (trimmed.take colonPos) = key then
        some (strTrim (trimmed.drop (colonPos + 1)))
      else none

/-- The value of the last key-value line for `key` among `lines`. -/
def lastScalar (key : Str) (lines : List Str) : Option Str :=
  (lines.filterMap (kvValueOf key)).getLast?

theorem commitTags_title (st : FmState) : (commitTags st).fm.title = st.fm.title := by
  rw [commitTags]
  split <;> rfl

theorem commitTags_date (st : FmState) : (commitTags st).fm.date = st.fm.date := by
  rw [commitTags]
  split <;> rfl

theorem commitTags_slug (st : FmState) : (commitTags st).fm.slug = st.fm.slug := by
  rw [commitTags]
  split <;> rfl

theorem processLine_scalars (st : FmState) (line : Str) :
    (processLine st line).fm.title = (kvValueOf (str "title") line).or st.fm.title ∧
    (processLine st line).fm.date = (kvValueOf (str "date") line).or st.fm.date ∧
    (processLine st line).fm.slug = (kvValueOf (str "slug") line).or st.fm.slug := by
  have netd : ¬ (str "title" = str "date") := by decide
  have nedt : ¬ (str "date" = str "title") := by decide
  have nets : ¬ (str "title" = str "slug") := by decide
  have nest : ¬ (str "slug" = str "title") := by decide
  have neds : ¬ (str "date" = str "slug") := by decide
  have nesd : ¬ (str "slug" = str "date") := by decide
  have netg : ¬ (str "title" = str "tags") := by decide
  have negt : ¬ (str "tags" = str "title") := by decide
  have nedg : ¬ (str "date" = str "tags") := by decide
  have negd : ¬ (str "tags" = str "date") := by decide
  have nesg : ¬ (str "slug" = str "tags") := by decide
  have negs : ¬ (str "tags" = str "slug") := by decide
  rw [processLine, kvValueOf, kvValueOf, kvValueOf]
  by_cases h1 : (strTrim line).isEmpty = true
  · simp [h1]
  · by_cases h2 : strStartsWith (strTrim line) (str "-") = true
    · simp only [h1, h2, if_false, if_true, Bool.false_eq_true]
      split_ifs <;> simp_all
    · simp only [h1, h2, if_false, Bool.false_eq_true]
      rcases hf : findCharIdx ':' (strTrim line) with _ | colonPos
      · simp
      · by_cases hk1 : strTrim ((strTrim line).take colonPos) = str "title"
          <;> by_cases hk2 : strTrim ((strTrim line).take colonPos) = str "date"
          <;> by_cases hk3 : strTrim ((strTrim line).take colonPos) = str "slug"
          <;> by_cases hk4 : strTrim ((strTrim line).take colonPos) = str "tags"
          <;> by_cases hv : strTrim ((strTrim line).drop (colonPos + 1)) = []
          <;> simp_all [commitTags_title, commitTags_date, commitTags_slug]

theorem getLast?_toList_append (x : Option Str) (l : List Str) :
    (x.toList ++ l).getLast? = l.getLast?.or x := by
  rw [List.getLast?_append]
  cases x <;> rfl

theorem foldl_scalars :
    ∀ (lines : List Str) (st : FmState),
      ((lines.foldl processLine st).fm.title =
        (lastScalar (str "title") lines).or st.fm.title) ∧
      ((lines.foldl processLine st).fm.date =
        (lastScalar (str "date") lines).or st.fm.date) ∧
      ((lines.foldl processLine st).fm.slug =
        (lastScalar (str "slug") lines).or st.fm.slug) := by
  intro lines
  induction lines with
  | nil => intro st; simp [lastScalar]
  | cons l ls ih =>
    intro st
    have hfm : ∀ key : Str, lastScalar key (l :: ls) =
        (lastScalar key ls).or (kvValueOf key l) := by
      intro key
      rw [lastScalar, lastScalar, List.filterMap_cons]
      rcases h : kvValueOf key l with _ | v
      · simp
      · simpa using getLast?_toList_append (some v) (ls.filterMap (kvValueOf key))
    have hpt := processLine_scalars st l
    have hind := ih (processLine st l)
    refine ⟨?_, ?_, ?_⟩
    · rw [List.foldl_cons, hind.1, hpt.1, hfm, Option.or_assoc]
    · rw [List.foldl_cons, hind.2.1, hpt.2.1, hfm, Option.or_assoc]
    · rw [List.foldl_cons, hind.2.2, hpt.2.2, hfm, Option.or_assoc]

theorem finalizeTags_scalars (st : FmState) :
    (finalizeTags st).title = st.fm.title ∧
    (finalizeTags st).date = st.fm.date ∧
    (finalizeTags st).slug = st.fm.slug := by
  rw [finalizeTags]
  split <;> exact ⟨rfl, rfl, rfl⟩

/-- C10: for each recognized scalar key (`title`, `date`, `slug`), the
parsed front-matter stores exactly the value of the last key-value
line for that key in the section (each later assignment overwrites the
earlier one); when the key never occurs, the field stays `None`. -/
theorem frontmatter_scalar_last_wins (sec : Str) :
    (parseFmSection sec).title = lastScalar (str "title") (rustLines sec) ∧
    (parseFmSection sec).date = lastScalar (str "date") (rustLines sec) ∧
    (parseFmSection sec).slug = lastScalar (str "slug") (rustLines sec) := by
  have hfin := finalizeTags_scalars (runLines (rustLines sec))
  have hfold := foldl_scalars (rustLines sec) initState
  have hinit : initState.fm.title = none ∧ initState.fm.date = none ∧
      initState.fm.slug = none := ⟨rfl, rfl, rfl⟩
  refine ⟨?_, ?_, ?_⟩
  · rw [parseFmSection, hfin.1, runLines, hfold.1, hinit.1, Option.or_none]
  · rw [parseFmSection, hfin.2.1, runLines, hfold.2.1, hinit.2.1, Option.or_none]
  · rw [parseFmSection, hfin.2.2, runLines, hfold.2.2, hinit.2.2, Option.or_none]

/-! ### Trim fixed points and split/join lemmas, used for the tag-form claims -/

theorem strTrimStart_cons_of_not_ws {c : Char} (s : Str) (h : isWs c = false) :
    strTrimStart (c :: s) = c :: s := by
  simp [strTrimStart, List.dropWhile_cons, h]

theorem strTrimStart_eq_self_of_length {t : Str} (h : (strTrimStart t).length = t.length) :
    strTrimStart t = t :=
  ((List.dropWhile_suffix isWs).sublist).eq_of_length h

theorem strTrimEnd_eq_self_of_length {t : Str} (h : (strTrimEnd t).length = t.length) :
    strTrimEnd t = t := by
  have hs : t.reverse.dropWhile isWs = t.reverse := by
    apply ((List.dropWhile_suffix isWs).sublist).eq_of_length
    have : (strTrimEnd t).length = (t.reverse.dropWhile isWs).length := by
      rw [strTrimEnd, List.length_reverse]
    rw [← this, h, List.length_reverse]
  rw [strTrimEnd, hs, List.reverse_reverse]

theorem strTrim_fix {t : Str} (h : strTrim t = t) :
    strTrimStart t = t ∧ strTrimEnd t = t := by
  have hlen1 : (strTrimEnd t).length ≤ t.length := by
    rw [strTrimEnd, List.length_reverse]
    exact ((List.dropWhile_suffix isWs).sublist).length_le.trans (by rw [List.length_reverse])
  have hlen2 : (strTrimStart (strTrimEnd t)).length ≤ (strTrimEnd t).length :=
    ((List.dropWhile_suffix isWs).sublist).length_le
  have hlen0 : (strTrim t).length = t.length := by rw [h]
  rw [strTrim] at hlen0
  have hE : strTrimEnd t = t := strTrimEnd_eq_self_of_length (by omega)
  have hS : strTrimStart t = t := by
    have he2 : strTrimStart t = strTrimStart (strTrimEnd t) := by rw [hE]
    rw [he2, ← strTrim]
    exact h
  exact ⟨hS, hE⟩

theorem head_not_ws_of_trimStart {c : Char} {s : Str}
    (h : strTrimStart (c :: s) = c :: s) : isWs c = false := by
  rcases hw : isWs c with _ | _
  · rfl
  · exfalso
    rw [strTrimStart, List.dropWhile_cons, hw, if_pos rfl] at h
    have hl := congrArg List.length h
    have hle : (s.dropWhile isWs).length ≤ s.length :=
      ((List.dropWhile_suffix isWs).sublist).length_le
    simp only [List.length_cons] at hl
    omega

theorem strTrimEnd_eq_iff_rev (t : Str) :
    strTrimEnd t = t ↔ strTrimStart t.reverse = t.reverse := by
  rw [strTrimEnd, strTrimStart]
  constructor
  · intro h
    have := congrArg List.reverse h
    rwa [List.reverse_reverse] at this
  · intro h
    rw [h, List.reverse_reverse]

theorem getLast_not_ws_of_trimEnd {t : Str} (hne : t ≠ []) (h : strTrimEnd t = t) :
    ∃ c, t.getLast? = some c ∧ isWs c = false := by
  have hrev := (strTrimEnd_eq_iff_rev t).mp h
  rcases ht : t.reverse with _ | ⟨c, cs⟩
  · exact absurd (by simpa using congrArg List.reverse ht) hne
  · rw [ht] at hrev
    refine ⟨c, ?_, head_not_ws_of_trimStart hrev⟩
    rw [← List.head?_reverse, ht]
    rfl

theorem strTrimEnd_cons {c : Char} {t : Str} (hne : t ≠ []) (h : strTrimEnd t = t) :
    strTrimEnd (c :: t) = c :: t := by
  have hrev := (strTrimEnd_eq_iff_rev t).mp h
  rw [strTrimStart] at hrev
  rw [strTrimEnd, show (c :: t).reverse = t.reverse ++ [c] by simp, List.dropWhile_append,
    hrev, if_neg (by simpa [List.isEmpty_iff] using hne)]
  simp

theorem strTrim_ws_cons {c : Char} (s : Str) (hw : isWs c = true) :
    strTrim (c :: s) = strTrim s := by
  rw [strTrim, strTrim]
  by_cases hE : s.reverse.dropWhile isWs = []
  · have h1 : strTrimEnd (c :: s) = [] := by
      rw [strTrimEnd, show (c :: s).reverse = s.reverse ++ [c] by simp,
        List.dropWhile_append, hE]
      simp [hw]
    have h2 : strTrimEnd s = [] := by
      rw [strTrimEnd, hE]
      rfl
    rw [h1, h2]
  · have h1 : strTrimEnd (c :: s) = c :: strTrimEnd s := by
      rw [strTrimEnd, show (c :: s).reverse = s.reverse ++ [c] by simp,
        List.dropWhile_append, if_neg (by simpa [List.isEmpty_iff] using hE), strTrimEnd]
      simp
    rw [h1, strTrimStart, List.dropWhile_cons, hw, if_pos rfl]
    rfl

theorem strTrimEnd_append_left (x : Str) {v : Str} (hne : v ≠ []) (h : strTrimEnd v = v) :
    strTrimEnd (x ++ v) = x ++ v := by
  induction x with
  | nil => simpa using h
  | cons c xs ih =>
    have hne2 : xs ++ v ≠ [] := by simp [hne]
    show strTrimEnd (c :: (xs ++ v)) = c :: (xs ++ v)
    exact strTrimEnd_cons hne2 ih

theorem splitOnChar_ne_nil (c : Char) : ∀ s : Str, splitOnChar c s ≠ []
  | [] => by simp [splitOnChar]
  | x :: xs => by
    rcases hr : splitOnChar c xs with _ | ⟨h, tl⟩
    · exact absurd hr (splitOnChar_ne_nil c xs)
    · by_cases hx : (x == c) = true <;> simp [splitOnChar, hr, hx]

theorem splitOnChar_no_occ (c : Char) : ∀ s : Str, (∀ ch ∈ s, ch ≠ c) → splitOnChar c s = [s]
  | [], _ => rfl
  | x :: xs, h => by
    have hx : (x == c) = false := by
      simpa using h x (List.mem_cons_self x xs)
    have ih := splitOnChar_no_occ c xs (fun ch hch => h ch (List.mem_cons_of_mem _ hch))
    simp [splitOnChar, hx, ih]

theorem splitOnChar_append_cons (c : Char) :
    ∀ (l rest : Str), (∀ ch ∈ l, ch ≠ c) →
      splitOnChar c (l ++ c :: rest) = l :: splitOnChar c rest
  | [], rest, _ => by simp [splitOnChar]
  | x :: l', rest, h => by
    have hx : (x == c) = false := by
      simpa using h x (List.mem_cons_self x l')
    have ih := splitOnChar_append_cons c l' rest (fun ch hch => h ch (List.mem_cons_of_mem _ hch))
    simp [splitOnChar, hx, ih]

theorem splitOnChar_cons_ne (c x : Char) (s : Str) (hx : (x == c) = false) :
    ∃ hd tl, splitOnChar c s = hd :: tl ∧ splitOnChar c (x :: s) = (x :: hd) :: tl := by
  rcases hr : splitOnChar c s with _ | ⟨hd, tl⟩
  · exact absurd hr (splitOnChar_ne_nil c s)
  · exact ⟨hd, tl, rfl, by simp [splitOnChar, hx, hr]⟩

theorem rustLines_single (s : Str) (hne : s ≠ []) (hnl : ∀ ch ∈ s, ch ≠ '\n') :
    rustLines s = [s] := by
  rw [rustLines, splitOnChar_no_occ '\n' s hnl]
  simp [hne]

theorem splitOnChar_intercalate :
    ∀ lines : List Str, lines ≠ [] →
      (∀ l ∈ lines, ∀ ch ∈ l, ch ≠ '\n') →
      splitOnChar '\n' (intercalateStr (str "\n") lines) = lines
  | [], h, _ => absurd rfl h
  | [l], _, hl => by
    rw [intercalateStr]
    exact splitOnChar_no_occ '\n' l (hl l (by simp))
  | l :: l2 :: ls, _, hl => by
    have ih := splitOnChar_intercalate (l2 :: ls) (by simp)
      (fun m hm => hl m (List.mem_cons_of_mem _ hm))
    rw [intercalateStr]
    have hshape : l ++ str "\n" ++ intercalateStr (str "\n") (l2 :: ls) =
        l ++ '\n' :: intercalateStr (str "\n") (l2 :: ls) := by
      rw [List.append_assoc]
      rfl
    rw [hshape, splitOnChar_append_cons '\n' l _ (hl l (by simp)), ih]

theorem rustLines_intercalate (lines : List Str) (hne : lines ≠ [])
    (hnl : ∀ l ∈ lines, ∀ ch ∈ l, ch ≠ '\n')
    (hcr : ∀ l ∈ lines, stripCR l = l)
    (hlast : lines.getLast? ≠ some []) :
    rustLines (intercalateStr (str "\n") lines) = lines := by
  rw [rustLines, splitOnChar_intercalate lines hne hnl, if_neg hlast]
  have hmap : lines.dropLast.map stripCR = lines.dropLast := by
    rw [List.map_congr_left (fun x hx => hcr x ((List.dropLast_sublist lines).subset hx))]
    simp
  rw [hmap, List.getLast?_eq_getLast lines hne]
  show lines.dropLast ++ [lines.getLast hne] = lines
  exact List.dropLast_append_getLast hne

theorem processLine_dash (st : FmState) (t : Str) (h : strTrim t = t) (hne : t ≠ []) :
    processLine st (str "- " ++ t) =
      if st.currentKey = some (str "tags") then { st with tagList := st.tagList ++ [t] }
      else st := by
  obtain ⟨hS, hE⟩ := strTrim_fix h
  have hE1 : strTrimEnd (' ' :: t) = ' ' :: t := strTrimEnd_cons hne hE
  have hE2 : strTrimEnd ('-' :: ' ' :: t) = '-' :: ' ' :: t := strTrimEnd_cons (by simp) hE1
  have htr : strTrim (str "- " ++ t) = '-' :: ' ' :: t := by
    show strTrim ('-' :: ' ' :: t) = _
    rw [strTrim, hE2]
    exact strTrimStart_cons_of_not_ws _ rfl
  have htag : strTrim (' ' :: t) = t := by
    rw [strTrim, hE1, strTrimStart, List.dropWhile_cons,
      if_pos (show isWs ' ' = true from rfl)]
    exact hS
  have hemp : ¬ (t.isEmpty = true) := by simpa [List.isEmpty_iff] using hne
  simp only [processLine, htr]
  simp [strStartsWith, htag, hemp]

theorem foldl_dash_items :
    ∀ (ts : List Str) (st : FmState), (∀ t ∈ ts, strTrim t = t ∧ t ≠ []) →
      (ts.map (fun t => str "- " ++ t)).foldl processLine st =
        if st.currentKey = some (str "tags") then { st with tagList := st.tagList ++ ts }
        else st
  | [], st, _ => by split <;> simp
  | t :: ts', st, h => by
    have h0 := h t (by simp)
    rw [List.map_cons, List.foldl_cons, processLine_dash st t h0.1 h0.2]
    by_cases hck : st.currentKey = some (str "tags")
    · rw [if_pos hck, if_pos hck,
        foldl_dash_items ts' _ (fun u hu => h u (List.mem_cons_of_mem _ hu))]
      rw [if_pos hck]
      simp
    · rw [if_neg hck, if_neg hck,
        foldl_dash_items ts' st (fun u hu => h u (List.mem_cons_of_mem _ hu)), if_neg hck]

theorem processLine_tagsHeader (st : FmState) :
    processLine st (str "tags:") = { commitTags st with currentKey := some (str "tags") } := rfl

theorem processLine_titleLine (st : FmState) :
    processLine st (str "title: x") =
      { commitTags st with fm := { (commitTags st).fm with title := some (str "x") },
                           currentKey := some (str "title") } := rfl

theorem processLine_noColon (st : FmState) : processLine st (str "hello") = st := rfl

theorem mem_intercalate_comma :
    ∀ (ts : List Str) (ch : Char), ch ∈ intercalateStr (str ", ") ts →
      ch = ',' ∨ ch = ' ' ∨ ∃ t ∈ ts, ch ∈ t
  | [], _, h => by cases h
  | [t], ch, h => by
    right; right
    exact ⟨t, by simp, by simpa [intercalateStr] using h⟩
  | t :: t2 :: ls, ch, h => by
    rw [intercalateStr, List.append_assoc] at h
    rcases List.mem_append.mp h with h1 | h2
    · exact Or.inr (Or.inr ⟨t, by simp, h1⟩)
    · rcases List.mem_append.mp h2 with h3 | h4
      · have hsep : (str ", ") = [',', ' '] := rfl
        rw [hsep] at h3
        simp only [List.mem_cons, List.mem_singleton] at h3
        rcases h3 with h3 | h3
        · exact Or.inl h3
        · exact Or.inr (Or.inl (by simpa using h3))
      · rcases mem_intercalate_comma (t2 :: ls) ch h4 with hc | hc | ⟨u, hu, hcu⟩
        · exact Or.inl hc
        · exact Or.inr (Or.inl hc)
        · exact Or.inr (Or.inr ⟨u, List.mem_cons_of_mem _ hu, hcu⟩)

theorem intercalate_comma_fix :
    ∀ ts : List Str, (∀ t ∈ ts, strTrim t = t ∧ t ≠ []) → ts ≠ [] →
      strTrimEnd (intercalateStr (str ", ") ts) = intercalateStr (str ", ") ts ∧
      intercalateStr (str ", ") ts ≠ []
  | [], _, hne => absurd rfl hne
  | [t], h, _ => by
    have h0 := h t (by simp)
    rw [intercalateStr]
    exact ⟨(strTrim_fix h0.1).2, h0.2⟩
  | t :: t2 :: ls, h, _ => by
    have ih := intercalate_comma_fix (t2 :: ls)
      (fun u hu => h u (List.mem_cons_of_mem _ hu)) (by simp)
    rw [intercalateStr, List.append_assoc]
    constructor
    · exact strTrimEnd_append_left t
        (by simp [ih.2]) (strTrimEnd_append_left (str ", ") ih.2 ih.1)
    · simp [(h t (by simp)).2]

theorem strTrim_intercalate_comma (ts : List Str)
    (h : ∀ t ∈ ts, strTrim t = t ∧ t ≠ []) (hne : ts ≠ []) :
    strTrim (intercalateStr (str ", ") ts) = intercalateStr (str ", ") ts := by
  obtain ⟨hE, hvne⟩ := intercalate_comma_fix ts h hne
  rw [strTrim, hE]
  rcases ts with _ | ⟨t0, ts'⟩
  · exact absurd rfl hne
  · have h0 := h t0 (by simp)
    rcases ht0 : t0 with _ | ⟨c, t0'⟩
    · exact absurd ht0 h0.2
    · have hc : isWs c = false := by
        apply head_not_ws_of_trimStart
        rw [← ht0]
        exact (strTrim_fix h0.1).1
      rcases ts' with _ | ⟨t1, ls⟩
      · rw [intercalateStr]
        exact strTrimStart_cons_of_not_ws _ hc
      · rw [intercalateStr, List.append_assoc]
        show strTrimStart (c :: (t0' ++ (str ", " ++ intercalateStr (str ", ") (t1 :: ls)))) =
          c :: (t0' ++ (str ", " ++ intercalateStr (str ", ") (t1 :: ls)))
        exact strTrimStart_cons_of_not_ws _ hc

theorem splitInlineTags_ws_cons (v : Str) :
    splitInlineTags (' ' :: v) = splitInlineTags v := by
  obtain ⟨hd, tl, h1, h2⟩ := splitOnChar_cons_ne ',' ' ' v (by decide)
  rw [splitInlineTags, splitInlineTags, h1, h2, List.map_cons, List.map_cons,
    strTrim_ws_cons hd (show isWs ' ' = true from rfl)]

theorem splitInlineTags_intercalate :
    ∀ ts : List Str, (∀ t ∈ ts, strTrim t = t ∧ t ≠ [] ∧ (∀ ch ∈ t, ch ≠ ',')) → ts ≠ [] →
      splitInlineTags (intercalateStr (str ", ") ts) = ts
  | [], _, hne => absurd rfl hne
  | [t], h, _ => by
    have h0 := h t (by simp)
    have hemp : ¬ (t.isEmpty = true) := by simpa [List.isEmpty_iff] using h0.2.1
    rw [intercalateStr, splitInlineTags, splitOnChar_no_occ ',' t h0.2.2]
    simp [h0.1, hemp]
  | t :: t2 :: ls, h, _ => by
    have h0 := h t (by simp)
    have hemp : ¬ (t.isEmpty = true) := by simpa [List.isEmpty_iff] using h0.2.1
    have ih := splitInlineTags_intercalate (t2 :: ls)
      (fun u hu => h u (List.mem_cons_of_mem _ hu)) (by simp)
    rw [intercalateStr]
    have hshape : t ++ str ", " ++ intercalateStr (str ", ") (t2 :: ls) =
        t ++ ',' :: (' ' :: intercalateStr (str ", ") (t2 :: ls)) := by
      rw [List.append_assoc]
      rfl
    have hrw : splitInlineTags (t ++ ',' :: (' ' :: intercalateStr (str ", ") (t2 :: ls))) =
        t :: splitInlineTags (' ' :: intercalateStr (str ", ") (t2 :: ls)) := by
      rw [splitInlineTags, splitOnChar_append_cons ',' t _ h0.2.2, List.map_cons, h0.1,
        List.filter_cons]
      simp [hemp, splitInlineTags]
    rw [hshape, hrw, splitInlineTags_ws_cons, ih]

theorem processLine_inline_tags (st : FmState) (v : Str)
    (hfix : strTrim v = v) (hvne : v ≠ []) :
    processLine st (str "tags: " ++ v) =
      { commitTags st with fm := { (commitTags st).fm with tags := some (splitInlineTags v) },
                           currentKey := none } := by
  have hE : strTrimEnd (str "tags: " ++ v) = str "tags: " ++ v :=
    strTrimEnd_append_left _ hvne (strTrim_fix hfix).2
  have htr : strTrim (str "tags: " ++ v) = 't' :: 'a' :: 'g' :: 's' :: ':' :: ' ' :: v := by
    rw [strTrim, hE]
    show strTrimStart ('t' :: ('a' :: 'g' :: 's' :: ':' :: ' ' :: v)) = _
    exact strTrimStart_cons_of_not_ws _ rfl
  have hfi : findCharIdx ':' ('t' :: 'a' :: 'g' :: 's' :: ':' :: ' ' :: v) = some 4 := rfl
  have hie : (('t' :: 'a' :: 'g' :: 's' :: ':' :: ' ' :: v : Str).isEmpty) = false := rfl
  have hsw : strStartsWith ('t' :: 'a' :: 'g' :: 's' :: ':' :: ' ' :: v) (str "-") = false := rfl
  have hkey : strTrim (List.take 4 ('t' :: 'a' :: 'g' :: 's' :: ':' :: ' ' :: v)) =
      str "tags" := rfl
  have hval : strTrim (List.drop (4 + 1) ('t' :: 'a' :: 'g' :: 's' :: ':' :: ' ' :: v)) = v := by
    show strTrim (' ' :: v) = v
    rw [strTrim_ws_cons v (show isWs ' ' = true from rfl)]
    exact hfix
  have hne1 : ¬ (str "tags" = str "title") := by decide
  have hne2 : ¬ (str "tags" = str "date") := by decide
  have hne3 : ¬ (str "tags" = str "slug") := by decide
  simp only [processLine, htr, hfi, hie, hsw, hkey, hval, Bool.false_eq_true, if_false,
    hne1, hne2, hne3]
  simp [hvne]

theorem parseFmSection_inline (ts : List Str)
    (h : ∀ t ∈ ts, strTrim t = t ∧ t ≠ [] ∧ (∀ ch ∈ t, ch ≠ ',') ∧ (∀ ch ∈ t, ch ≠ '\n')) :
    parseFmSection (str "tags: " ++ intercalateStr (str ", ") ts) =
      { Frontmatter.default with tags := if ts = [] then none else some ts } := by
  rcases hts : ts with _ | ⟨t0, ts'⟩
  · decide
  · rw [← hts]
    have hne : ts ≠ [] := by rw [hts]; simp
    have hbase : ∀ t ∈ ts, strTrim t = t ∧ t ≠ [] := fun t ht => ⟨(h t ht).1, (h t ht).2.1⟩
    have hvfix : strTrim (intercalateStr (str ", ") ts) = intercalateStr (str ", ") ts :=
      strTrim_intercalate_comma ts hbase hne
    have hvne : intercalateStr (str ", ") ts ≠ [] := (intercalate_comma_fix ts hbase hne).2
    have hnl : ∀ ch ∈ str "tags: " ++ intercalateStr (str ", ") ts, ch ≠ '\n' := by
      intro ch hch
      rcases List.mem_append.mp hch with h1 | h2
      · have hsep : (str "tags: ") = ['t', 'a', 'g', 's', ':', ' '] := rfl
        rw [hsep] at h1
        simp only [List.mem_cons] at h1
        rcases h1 with rfl | rfl | rfl | rfl | rfl | h1 <;> try decide
        simp at h1
        subst h1
        decide
      · rcases mem_intercalate_comma ts ch h2 with rfl | rfl | ⟨t, ht, hcht⟩
        · decide
        · decide
        · exact (h t ht).2.2.2 ch hcht
    have hlne : str "tags: " ++ intercalateStr (str ", ") ts ≠ [] := fun hx => by
      rw [show str "tags: " ++ intercalateStr (str ", ") ts =
        't' :: ('a' :: 'g' :: 's' :: ':' :: ' ' :: intercalateStr (str ", ") ts) from rfl] at hx
      cases hx
    rw [parseFmSection, rustLines_single _ hlne hnl, runLines]
    rw [List.foldl_cons, List.foldl_nil, processLine_inline_tags initState _ hvfix hvne]
    rw [show commitTags initState = initState from rfl]
    rw [splitInlineTags_intercalate ts (fun t ht => ⟨(h t ht).1, (h t ht).2.1, (h t ht).2.2.1⟩) hne]
    rw [finalizeTags]
    rw [if_neg (by simp)]
    rw [hts]
    simp [Frontmatter.default]
    exact ⟨rfl, rfl, rfl⟩

theorem dash_line_facts (t : Str) (hfix : strTrim t = t) (hne : t ≠ []) :
    (∀ ch ∈ str "- " ++ t, ch = '-' ∨ ch = ' ' ∨ ch ∈ t) ∧
    stripCR (str "- " ++ t) = str "- " ++ t ∧ str "- " ++ t ≠ [] := by
  refine ⟨?_, ?_, ?_⟩
  · intro ch hch
    rcases List.mem_append.mp hch with h1 | h2
    · rw [show (str "- ") = ['-', ' '] from rfl] at h1
      simp only [List.mem_cons] at h1
      rcases h1 with rfl | h1
      · exact Or.inl rfl
      · simp at h1
        subst h1
        exact Or.inr (Or.inl rfl)
    · exact Or.inr (Or.inr h2)
  · obtain ⟨c, hcl, hcw⟩ := getLast_not_ws_of_trimEnd hne (strTrim_fix hfix).2
    rw [stripCR, List.getLast?_append_of_ne_nil (str "- ") hne, hcl, if_neg ?_]
    intro heq
    rw [Option.some.injEq] at heq
    subst heq
    cases hcw
  · intro hx
    rw [show str "- " ++ t = '-' :: (' ' :: t) from rfl] at hx
    cases hx

theorem parseFmSection_block (ts : List Str)
    (h : ∀ t ∈ ts, strTrim t = t ∧ t ≠ [] ∧ (∀ ch ∈ t, ch ≠ '\n')) :
    parseFmSection (intercalateStr (str "\n") (str "tags:" :: ts.map (fun t => str "- " ++ t))) =
      { Frontmatter.default with tags := if ts = [] then none else some ts } := by
  have hlines : rustLines (intercalateStr (str "\n")
      (str "tags:" :: ts.map (fun t => str "- " ++ t))) =
      str "tags:" :: ts.map (fun t => str "- " ++ t) := by
    apply rustLines_intercalate
    · simp
    · intro l hl ch hch
      rcases List.mem_cons.mp hl with rfl | hl2
      · rw [show (str "tags:") = ['t', 'a', 'g', 's', ':'] from rfl] at hch
        simp only [List.mem_cons] at hch
        rcases hch with rfl | rfl | rfl | rfl | rfl | hch
        · decide
        · decide
        · decide
        · decide
        · decide
        · simp at hch
      · obtain ⟨t, ht, rfl⟩ := List.mem_map.mp hl2
        have h0 := h t ht
        rcases (dash_line_facts t h0.1 h0.2.1).1 ch hch with rfl | rfl | hin
        · decide
        · decide
        · exact h0.2.2 ch hin
    · intro l hl
      rcases List.mem_cons.mp hl with rfl | hl2
      · rfl
      · obtain ⟨t, ht, rfl⟩ := List.mem_map.mp hl2
        have h0 := h t ht
        exact (dash_line_facts t h0.1 h0.2.1).2.1
    · intro hq
      have hmem := List.mem_of_mem_getLast? hq
      rcases List.mem_cons.mp hmem with heq | hl2
      · cases heq
      · obtain ⟨t, ht, hteq⟩ := List.mem_map.mp hl2
        have h0 := h t ht
        exact (dash_line_facts t h0.1 h0.2.1).2.2 hteq
  rw [parseFmSection, hlines, runLines, List.foldl_cons, processLine_tagsHeader,
    show commitTags initState = initState from rfl]
  rw [foldl_dash_items ts _ (fun t ht => ⟨(h t ht).1, (h t ht).2.1⟩), if_pos rfl]
  rcases hts : ts with _ | ⟨t0, ts'⟩
  · decide
  · rw [finalizeTags, if_pos ⟨rfl, by simp⟩]
    simp [initState, Frontmatter.default]

/-- C5 (amended): for every sequence of non-empty trimmed tag texts
containing no comma and no newline, the inline form `tags: a, b, c` and
the block form `tags:` + `- a` + `- b` + `- c` parse to equal
front-matter (and, for a non-empty sequence, to exactly that tag
sequence). A tag containing a comma breaks the equivalence (see the
counterexample), which is what restricts the claim. -/
theorem inline_block_tags_agree (ts : List Str)
    (h : ∀ t ∈ ts, strTrim t = t ∧ t ≠ [] ∧ (∀ ch ∈ t, ch ≠ ',') ∧ (∀ ch ∈ t, ch ≠ '\n')) :
    parseFmSection (str "tags: " ++ intercalateStr (str ", ") ts) =
      parseFmSection (intercalateStr (str "\n")
        (str "tags:" :: ts.map (fun t => str "- " ++ t))) ∧
    (ts ≠ [] →
      (parseFmSection (str "tags: " ++ intercalateStr (str ", ") ts)).tags = some ts) := by
  have hi := parseFmSection_inline ts h
  have hb := parseFmSection_block ts (fun t ht => ⟨(h t ht).1, (h t ht).2.1, (h t ht).2.2.2⟩)
  refine ⟨by rw [hi, hb], fun hne => ?_⟩
  rw [hi]
  simp [hne]

/-- C5 counterexample: for the tag sequence `["a,b"]` (a non-empty
trimmed tag text) the inline form `tags: a,b` parses to `["a","b"]`
while the block form `tags:` + `- a,b` parses to `["a,b"]`, so the
claim as stated (for arbitrary tag texts) is false. -/
theorem inline_block_tags_counterexample :
    (Frontmatter.parse (str "---\ntags: a,b\n---\nx")).1.tags ≠
      (Frontmatter.parse (str "---\ntags:\n- a,b\n---\nx")).1.tags ∧
    (Frontmatter.parse (str "---\ntags: a,b\n---\nx")).1.tags =
      some [str "a", str "b"] ∧
    (Frontmatter.parse (str "---\ntags:\n- a,b\n---\nx")).1.tags = some [str "a,b"] :=
  ⟨by decide, by decide, by decide⟩

theorem inline_block_tags_agree_witness :
    parseFmSection (str "tags: " ++ intercalateStr (str ", ") [str "a", str "b", str "c"]) =
      parseFmSection (intercalateStr (str "\n")
        (str "tags:" :: [str "a", str "b", str "c"].map (fun t => str "- " ++ t))) ∧
    (parseFmSection (str "tags: " ++
        intercalateStr (str ", ") [str "a", str "b", str "c"])).tags =
      some [str "a", str "b", str "c"] :=
  ⟨(inline_block_tags_agree [str "a", str "b", str "c"] (by decide)).1,
   (inline_block_tags_agree [str "a", str "b", str "c"] (by decide)).2 (by decide)⟩

theorem rustLines_of_ok (lines : List Str) (hne : lines ≠ [])
    (hok : ∀ l ∈ lines, (∀ ch ∈ l, ch ≠ '\n') ∧ stripCR l = l ∧ l ≠ []) :
    rustLines (intercalateStr (str "\n") lines) = lines := by
  apply rustLines_intercalate lines hne (fun l hl => (hok l hl).1) (fun l hl => (hok l hl).2.1)
  intro hq
  exact (hok _ (List.mem_of_mem_getLast? hq)).2.2 rfl

theorem dash_line_ok (t : Str) (hfix : strTrim t = t) (hne : t ≠ [])
    (hnl : ∀ ch ∈ t, ch ≠ '\n') :
    (∀ ch ∈ str "- " ++ t, ch ≠ '\n') ∧ stripCR (str "- " ++ t) = str "- " ++ t ∧
      str "- " ++ t ≠ [] := by
  refine ⟨?_, (dash_line_facts t hfix hne).2.1, (dash_line_facts t hfix hne).2.2⟩
  intro ch hch
  rcases (dash_line_facts t hfix hne).1 ch hch with rfl | rfl | hin
  · decide
  · decide
  · exact hnl ch hin

/-- C6 (amended): in block form, tags accumulate until the first
key-value line (a non-list, non-empty line containing `:`) or the end
of the section, at which point the list is committed; `- item` lines
after an intervening key-value line with a key other than `tags`
contribute no tags.  A non-list, non-empty line WITHOUT a colon
(such as `hello`) does not commit and does not interrupt accumulation,
so items after it still contribute (see the counterexample), which is
what restricts the claim. -/
theorem block_tags_commit (ts1 ts2 : List Str)
    (h1 : ∀ t ∈ ts1, strTrim t = t ∧ t ≠ [] ∧ (∀ ch ∈ t, ch ≠ '\n'))
    (h2 : ∀ t ∈ ts2, strTrim t = t ∧ t ≠ [] ∧ (∀ ch ∈ t, ch ≠ '\n'))
    (hne : ts1 ≠ []) :
    (parseFmSection (intercalateStr (str "\n")
        (str "tags:" :: (ts1.map (fun t => str "- " ++ t) ++
          str "title: x" :: ts2.map (fun t => str "- " ++ t))))).tags = some ts1 ∧
    (parseFmSection (intercalateStr (str "\n")
        (str "tags:" :: (ts1.map (fun t => str "- " ++ t) ++
          str "hello" :: ts2.map (fun t => str "- " ++ t))))).tags =
      some (ts1 ++ ts2) := by
  have hbase1 : ∀ t ∈ ts1, strTrim t = t ∧ t ≠ [] :=
    fun t ht => ⟨(h1 t ht).1, (h1 t ht).2.1⟩
  have hbase2 : ∀ t ∈ ts2, strTrim t = t ∧ t ≠ [] :=
    fun t ht => ⟨(h2 t ht).1, (h2 t ht).2.1⟩
  have hokd : ∀ (sep : Str),
      ((∀ ch ∈ sep, ch ≠ '\n') ∧ stripCR sep = sep ∧ sep ≠ []) →
      ∀ l ∈ str "tags:" :: (ts1.map (fun t => str "- " ++ t) ++
          sep :: ts2.map (fun t => str "- " ++ t)),
        (∀ ch ∈ l, ch ≠ '\n') ∧ stripCR l = l ∧ l ≠ [] := by
    intro sep hsep l hl
    rcases List.mem_cons.mp hl with rfl | hl2
    · exact ⟨by decide, rfl, by decide⟩
    · rcases List.mem_append.mp hl2 with hm | hm
      · obtain ⟨t, ht, rfl⟩ := List.mem_map.mp hm
        exact dash_line_ok t (h1 t ht).1 (h1 t ht).2.1 (h1 t ht).2.2
      · rcases List.mem_cons.mp hm with rfl | hm2
        · exact hsep
        · obtain ⟨t, ht, rfl⟩ := List.mem_map.mp hm2
          exact dash_line_ok t (h2 t ht).1 (h2 t ht).2.1 (h2 t ht).2.2
  have hst0 : processLine initState (str "tags:") =
      ⟨Frontmatter.default, some (str "tags"), []⟩ := rfl
  have hst1 : (ts1.map (fun t => str "- " ++ t)).foldl processLine
      ⟨Frontmatter.default, some (str "tags"), []⟩ =
      ⟨Frontmatter.default, some (str "tags"), ts1⟩ := by
    rw [foldl_dash_items ts1 _ hbase1, if_pos rfl]
    simp
  constructor
  · have hlines := rustLines_of_ok _ (by simp) (hokd (str "title: x") ⟨by decide, rfl, by decide⟩)
    have hst2 : processLine ⟨Frontmatter.default, some (str "tags"), ts1⟩ (str "title: x") =
        ⟨{ Frontmatter.default with tags := some ts1, title := some (str "x") },
          some (str "title"), []⟩ := by
      rw [processLine_titleLine,
        show commitTags ⟨Frontmatter.default, some (str "tags"), ts1⟩ =
          ⟨{ Frontmatter.default with tags := some ts1 }, some (str "tags"), []⟩ from by
            rw [commitTags, if_pos ⟨rfl, hne⟩]]
    have hst3 : (ts2.map (fun t => str "- " ++ t)).foldl processLine
        ⟨{ Frontmatter.default with tags := some ts1, title := some (str "x") },
          some (str "title"), []⟩ =
        ⟨{ Frontmatter.default with tags := some ts1, title := some (str "x") },
          some (str "title"), []⟩ := by
      rw [foldl_dash_items ts2 _ hbase2,
        if_neg (fun hq => absurd (Option.some.inj hq) (by decide))]
    rw [parseFmSection, hlines, runLines, List.foldl_cons, hst0, List.foldl_append, hst1,
      List.foldl_cons, hst2, hst3, finalizeTags,
      if_neg (fun hq => absurd (Option.some.inj hq.1) (by decide))]
  · have hlines := rustLines_of_ok _ (by simp) (hokd (str "hello") ⟨by decide, rfl, by decide⟩)
    have hst2 : processLine ⟨Frontmatter.default, some (str "tags"), ts1⟩ (str "hello") =
        ⟨Frontmatter.default, some (str "tags"), ts1⟩ := processLine_noColon _
    have hst3 : (ts2.map (fun t => str "- " ++ t)).foldl processLine
        ⟨Frontmatter.default, some (str "tags"), ts1⟩ =
        ⟨Frontmatter.default, some (str "tags"), ts1 ++ ts2⟩ := by
      rw [foldl_dash_items ts2 _ hbase2, if_pos rfl]
    rw [parseFmSection, hlines, runLines, List.foldl_cons, hst0, List.foldl_append, hst1,
      List.foldl_cons, hst2, hst3, finalizeTags,
      if_pos ⟨rfl, fun hq => hne (List.append_eq_nil.mp hq).1⟩]

/-- C6 counterexample: in the section `tags:` + `- a` + `hello` + `- b`
the non-list, non-empty line `hello` does not commit the accumulated
tags, and the later item `- b` still contributes: the parsed tags are
`["a","b"]`, not `["a"]` as the claim predicts. -/
theorem block_tags_commit_counterexample :
    (Frontmatter.parse (str "---\ntags:\n- a\nhello\n- b\n---\nx")).1.tags =
      some [str "a", str "b"] ∧
    (Frontmatter.parse (str "---\ntags:\n- a\nhello\n- b\n---\nx")).1.tags ≠
      some [str "a"] :=
  ⟨by decide, by decide⟩

theorem block_tags_commit_witness :
    (parseFmSection (intercalateStr (str "\n")
        (str "tags:" :: ([str "a"].map (fun t => str "- " ++ t) ++
          str "title: x" :: [str "b"].map (fun t => str "- " ++ t))))).tags =
      some [str "a"] ∧
    (parseFmSection (intercalateStr (str "\n")
        (str "tags:" :: ([str "a"].map (fun t => str "- " ++ t) ++
          str "hello" :: [str "b"].map (fun t => str "- " ++ t))))).tags =
      some ([str "a"] ++ [str "b"]) :=
  ⟨(block_tags_commit [str "a"] [str "b"] (by decide) (by decide) (by decide)).1,
   (block_tags_commit [str "a"] [str "b"] (by decide) (by decide) (by decide)).2⟩
